import Mathlib

/-!
Verification of the clip-synthesis pipeline of `desktop-app/clipper_core.py`
(class `AutoClipperCore`).

The definitions below are a shallow embedding of the Python source:

* the Stabilized Crop Planner — the frame-analysis loop of
  `convert_to_portrait` and the two passes of `stabilize_positions`
  (median smoothing, then shot locking);
* the highlight duration filter of `find_highlights` with `parse_timestamp`;
* the per-clip orchestration of `process` / `process_clip` / `cleanup`
  as a state machine over created artifacts, cancellation polls and
  possible per-step external failures;
* the progress fractions emitted by `process`, `download_video` and the
  `clip_progress` helper of `process_clip`, modelled exactly over ℚ;
* the caption timeline of `create_ass_subtitle_capcut` / `format_time`
  and the error handling of `add_captions_api`.

Python floats whose values in this code are exact (halves of integers for
face-tracking targets, SRT second fields, progress arithmetic) are modelled
by ℤ / ℚ; Python `int()` truncation toward zero on such values is `Int.tdiv`
(for halves) or is harmless because the value is a nonnegative integer.
-/

/-! ## Stabilized Crop Planner -/

/-- A face detection returned by `face_cascade.detectMultiScale`: bounding box
`(x, y, w, h)` in pixels. -/
structure FaceBox where
  x : Int
  y : Int
  w : Int
  h : Int
deriving DecidableEq, Repr

/-- `max(faces, key=lambda f: f[2] * f[3])` — the largest-area box, first in
scan order on ties (`max` keeps the earlier element unless a later one is
strictly larger), `none` for an empty detection list. -/
def largestFace (faces : List FaceBox) : Option FaceBox :=
  faces.foldl
    (fun best f =>
      match best with
      | none => some f
      | some b => if b.w * b.h < f.w * f.h then some f else some b)
    none

/-- Target update of the analysis loop of `convert_to_portrait`: on a
detection the float target becomes `largest[0] + largest[2] / 2`, otherwise
it is carried forward.  The target is always an integer multiple of 1/2, so
it is carried as `target2 = 2 * current_target` (hence `2*x + w`). -/
def faceTarget (target2 : Int) (faces : List FaceBox) : Int :=
  match largestFace faces with
  | some f => 2 * f.x + f.w
  | none => target2

/-- `crop_x = max(0, min(crop_x, orig_w - crop_w))` — the clamp applied to
every derived crop offset. -/
def clampCrop (origW cropW cropX : Int) : Int :=
  max 0 (min cropX (origW - cropW))

/-- One iteration of the analysis loop of `convert_to_portrait`
(lines 391–406): update the target, derive
`crop_x = int(current_target - crop_w / 2)` (truncation toward zero of an
exact multiple of 1/2 is `Int.tdiv _ 2`), clamp.  Returns
(new target2, clamped crop offset). -/
def analyzeStep (origW cropW target2 : Int) (faces : List FaceBox) :
    Int × Int :=
  (faceTarget target2 faces,
   clampCrop origW cropW (Int.tdiv (faceTarget target2 faces - cropW) 2))

/-- The whole analysis (first) pass of `convert_to_portrait`: fold
`analyzeStep` over the per-frame face signal, collecting the clamped crop
offsets `crop_positions`.  The target starts at frame center
(`current_target = orig_w / 2`, i.e. `target2 = orig_w`). -/
def analyzePositions (faceSignal : List (List FaceBox)) (origW cropW : Int) :
    List Int :=
  (faceSignal.foldl
      (fun acc faces =>
        ((analyzeStep origW cropW acc.1 faces).1,
         acc.2 ++ [(analyzeStep origW cropW acc.1 faces).2]))
      (origW, ([] : List Int))).2

/-- The ascending sort `np.median` performs internally. -/
def sortedList (l : List Int) : List Int := l.insertionSort (· ≤ ·)

/-- `int(np.median(window))` for an integer list: sort ascending; an
odd-length list takes the middle element, an even-length list averages the
two middle elements — a float that is an exact multiple of 1/2, so Python
`int()` truncation toward zero is `Int.tdiv (a + b) 2`. -/
def medTrunc (l : List Int) : Int :=
  if (sortedList l).length % 2 = 1 then
    (sortedList l).getD ((sortedList l).length / 2) 0
  else
    Int.tdiv ((sortedList l).getD ((sortedList l).length / 2 - 1) 0 +
      (sortedList l).getD ((sortedList l).length / 2) 0) 2

/-- The window `positions[max(0, i - 30) : min(len(positions), i + 30)]` used
by the smoothing pass (`window_size = 60`, `window_size // 2 = 30`). -/
def smoothWindow (positions : List Int) (i : Nat) : List Int :=
  (positions.drop (i - 30)).take (min positions.length (i + 30) - (i - 30))

/-- The first (smoothing) pass of `stabilize_positions`: replace each
position by the truncated median of its centered window. -/
def smoothPass (positions : List Int) : List Int :=
  (List.range positions.length).map (fun i => medTrunc (smoothWindow positions i))

/-- One iteration of the shot-locking loop of `stabilize_positions`
(lines 474–485): accumulator `(final, shot_start)`; a shot boundary is
declared at `i` when `i > 0`, at least `min_shot_duration = 90` frames have
elapsed since `shot_start`, and the smoothed offset drifted more than
`threshold = 250` pixels from the value at `shot_start`; the finished shot is
appended to `final` as copies of its median and `shot_start` moves to `i`. -/
def shotLockStep (s : List Int) (acc : List Int × Nat) (i : Nat) :
    List Int × Nat :=
  if 0 < i ∧ 90 ≤ i - acc.2 then
    if 250 < (s.getD i 0 - s.getD acc.2 0).natAbs then
      (acc.1 ++ List.replicate ((s.drop acc.2).take (i - acc.2)).length
          (medTrunc ((s.drop acc.2).take (i - acc.2))), i)
    else acc
  else acc

/-- The `(final, shot_start)` pair after the boundary loop. -/
def shotLoop (stabilized : List Int) : List Int × Nat :=
  (List.range stabilized.length).foldl (shotLockStep stabilized) ([], 0)

/-- `final` after the last shot is locked to its own median
(the `if shot_positions:` tail of `stabilize_positions`). -/
def lockedFinal (stabilized : List Int) : List Int :=
  if (stabilized.drop (shotLoop stabilized).2).length ≠ 0 then
    (shotLoop stabilized).1 ++
      List.replicate (stabilized.drop (shotLoop stabilized).2).length
        (medTrunc (stabilized.drop (shotLoop stabilized).2))
  else (shotLoop stabilized).1

/-- The second (shot-locking) pass of `stabilize_positions`
(lines 466–493): run the boundary loop, lock the last shot, and return
`final if final else stabilized`. -/
def shot_lock (stabilized : List Int) : List Int :=
  if (lockedFinal stabilized).length ≠ 0 then lockedFinal stabilized
  else stabilized

/-- `stabilize_positions` (lines 447–493): empty input is returned as is
(`if not positions: return positions`); otherwise median smoothing followed
by shot locking. -/
def stabilize_positions (positions : List Int) : List Int :=
  if positions.length = 0 then positions
  else shot_lock (smoothPass positions)

/-! ### Helper lemmas for the crop planner -/

theorem foldl_inv {α β : Type} {P : β → Prop} (f : β → α → β) (l : List α)
    (b : β) (h0 : P b) (hs : ∀ b a, P b → P (f b a)) : P (l.foldl f b) := by
  induction l generalizing b with
  | nil => exact h0
  | cons a t ih => exact ih _ (hs _ _ h0)

theorem foldl_range_inv {β : Type} {P : β → Prop} (n : Nat) (f : β → Nat → β)
    (b : β) (h0 : P b) (hs : ∀ b i, i < n → P b → P (f b i)) :
    P ((List.range n).foldl f b) := by
  induction n with
  | zero => exact h0
  | succ m ih =>
      rw [List.range_succ, List.foldl_append]
      exact hs _ _ (Nat.lt_succ_self m)
        (ih (fun b i hi hb => hs b i (Nat.lt_succ_of_lt hi) hb))

theorem getD_mem {l : List Int} {i : Nat} (h : i < l.length) :
    l.getD i 0 ∈ l := by
  rw [List.getD_eq_getElem?_getD, List.getElem?_eq_getElem h]
  exact List.getElem_mem h

/-- The truncated median of a list whose elements all lie in `[0, M]` lies in
`[0, M]` (the degenerate empty list gives `0`, also in range). -/
theorem medTrunc_bounds {M : Int} (hM : 0 ≤ M) (l : List Int)
    (hl : ∀ x ∈ l, 0 ≤ x ∧ x ≤ M) :
    0 ≤ medTrunc l ∧ medTrunc l ≤ M := by
  unfold medTrunc
  have hmem : ∀ x ∈ sortedList l, 0 ≤ x ∧ x ≤ M := by
    intro x hx
    exact hl x ((List.perm_insertionSort (· ≤ ·) l).mem_iff.mp hx)
  by_cases hn : (sortedList l).length = 0
  · have hnil : sortedList l = [] := List.length_eq_zero.mp hn
    rw [hnil]
    simp
    omega
  · have hpos : 0 < (sortedList l).length := Nat.pos_of_ne_zero hn
    by_cases hodd : (sortedList l).length % 2 = 1
    · rw [if_pos hodd]
      exact hmem _ (getD_mem (Nat.div_lt_self hpos (by norm_num)))
    · rw [if_neg hodd]
      have hlt2 : (sortedList l).length / 2 < (sortedList l).length :=
        Nat.div_lt_self hpos (by norm_num)
      have hlt1 : (sortedList l).length / 2 - 1 < (sortedList l).length := by
        omega
      obtain ⟨ha0, haM⟩ := hmem _ (getD_mem hlt1)
      obtain ⟨hb0, hbM⟩ := hmem _ (getD_mem hlt2)
      constructor
      · exact Int.tdiv_nonneg (by omega) (by norm_num)
      · rw [Int.tdiv_eq_ediv (by omega) (by norm_num)]
        have h1 : ((sortedList l).getD ((sortedList l).length / 2 - 1) 0 +
            (sortedList l).getD ((sortedList l).length / 2) 0) / 2 ≤
            (2 * M) / 2 := Int.ediv_le_ediv (by norm_num) (by omega)
        omega

/-- The truncated median of a constant list is the constant. -/
theorem medTrunc_replicate (k : Nat) (c : Int) (hk : 0 < k) :
    medTrunc (List.replicate k c) = c := by
  unfold medTrunc
  have hsorted : sortedList (List.replicate k c) = List.replicate k c :=
    List.perm_replicate.mp (List.perm_insertionSort (· ≤ ·) _)
  rw [hsorted, List.length_replicate]
  have hgMid : (List.replicate k c).getD (k / 2) 0 = c := by
    rw [List.getD_eq_getElem?_getD, List.getElem?_replicate,
      if_pos (Nat.div_lt_self hk (by norm_num))]
    rfl
  by_cases hodd : k % 2 = 1
  · rw [if_pos hodd, hgMid]
  · have h2 : 2 ≤ k := by omega
    have hg1 : (List.replicate k c).getD (k / 2 - 1) 0 = c := by
      rw [List.getD_eq_getElem?_getD, List.getElem?_replicate, if_pos (by omega)]
      rfl
    rw [if_neg hodd, hgMid, hg1]
    have hcc : c + c = 2 * c := by ring
    rw [hcc, Int.mul_tdiv_cancel_left c (by norm_num)]

/-- Every element of a smoothing window is an element of the input list. -/
theorem smoothWindow_subset (positions : List Int) (i : Nat) :
    ∀ x ∈ smoothWindow positions i, x ∈ positions := by
  intro x hx
  exact List.mem_of_mem_drop (List.mem_of_mem_take hx)

/-- Every element of the smoothed sequence is a truncated median of a
window of the input. -/
theorem smoothPass_mem (positions : List Int) :
    ∀ x ∈ smoothPass positions, ∃ i, x = medTrunc (smoothWindow positions i) := by
  intro x hx
  unfold smoothPass at hx
  obtain ⟨i, _, rfl⟩ := List.mem_map.mp hx
  exact ⟨i, rfl⟩

/-- Bound preservation for the smoothing pass. -/
theorem smoothPass_bounds {M : Int} (hM : 0 ≤ M) (positions : List Int)
    (hp : ∀ x ∈ positions, 0 ≤ x ∧ x ≤ M) :
    ∀ x ∈ smoothPass positions, 0 ≤ x ∧ x ≤ M := by
  intro x hx
  obtain ⟨i, rfl⟩ := smoothPass_mem positions x hx
  exact medTrunc_bounds hM _ (fun y hy => hp y (smoothWindow_subset positions i y hy))

/-- Bound preservation for the boundary loop accumulator. -/
theorem shotLoop_bounds {M : Int} (hM : 0 ≤ M) (s : List Int)
    (hp : ∀ x ∈ s, 0 ≤ x ∧ x ≤ M) :
    ∀ x ∈ (shotLoop s).1, 0 ≤ x ∧ x ≤ M := by
  have hmed : ∀ (t : List Int), (∀ y ∈ t, y ∈ s) →
      0 ≤ medTrunc t ∧ medTrunc t ≤ M := by
    intro t ht
    exact medTrunc_bounds hM t (fun y hy => hp y (ht y hy))
  unfold shotLoop
  refine foldl_inv (P := fun acc : List Int × Nat => ∀ x ∈ acc.1, 0 ≤ x ∧ x ≤ M)
    _ _ _ ?_ ?_
  · intro x hx
    simp at hx
  · intro acc i hacc
    unfold shotLockStep
    split
    · split
      · intro x hx
        rcases List.mem_append.mp hx with hx | hx
        · exact hacc x hx
        · have hxe := List.eq_of_mem_replicate hx
          subst hxe
          exact hmed _ (fun y hy => List.mem_of_mem_drop (List.mem_of_mem_take hy))
      · exact hacc
    · exact hacc

/-- Bound preservation for the shot-locking pass. -/
theorem shot_lock_bounds {M : Int} (hM : 0 ≤ M) (s : List Int)
    (hp : ∀ x ∈ s, 0 ≤ x ∧ x ≤ M) :
    ∀ x ∈ shot_lock s, 0 ≤ x ∧ x ≤ M := by
  have hmed : ∀ (t : List Int), (∀ y ∈ t, y ∈ s) →
      0 ≤ medTrunc t ∧ medTrunc t ≤ M := by
    intro t ht
    exact medTrunc_bounds hM t (fun y hy => hp y (ht y hy))
  have hfinal : ∀ x ∈ lockedFinal s, 0 ≤ x ∧ x ≤ M := by
    unfold lockedFinal
    split
    · intro x hx
      rcases List.mem_append.mp hx with hx | hx
      · exact shotLoop_bounds hM s hp x hx
      · have hxe := List.eq_of_mem_replicate hx
        subst hxe
        exact hmed _ (fun y hy => List.mem_of_mem_drop hy)
    · exact shotLoop_bounds hM s hp
  unfold shot_lock
  split
  · exact hfinal
  · exact hp

/-- Bound preservation for the whole stabilizer. -/
theorem stabilize_bounds {M : Int} (hM : 0 ≤ M) (positions : List Int)
    (hp : ∀ x ∈ positions, 0 ≤ x ∧ x ≤ M) :
    ∀ x ∈ stabilize_positions positions, 0 ≤ x ∧ x ≤ M := by
  unfold stabilize_positions
  split
  · exact hp
  · exact shot_lock_bounds hM _ (smoothPass_bounds hM positions hp)

/-- Every raw crop position produced by the analysis pass is clamped into
`[0, origW - cropW]`. -/
theorem analyzePositions_bounds (faceSignal : List (List FaceBox))
    (origW cropW : Int) (hM : 0 ≤ origW - cropW) :
    ∀ x ∈ analyzePositions faceSignal origW cropW,
      0 ≤ x ∧ x ≤ origW - cropW := by
  unfold analyzePositions
  refine foldl_inv
    (P := fun acc : Int × List Int => ∀ x ∈ acc.2, 0 ≤ x ∧ x ≤ origW - cropW)
    _ _ _ ?_ ?_
  · intro x hx
    simp at hx
  · intro acc faces hacc x hx
    rcases List.mem_append.mp hx with hx | hx
    · exact hacc x hx
    · rw [List.mem_singleton] at hx
      subst hx
      unfold analyzeStep clampCrop
      constructor
      · exact le_max_left 0 _
      · simp only [max_le_iff]
        exact ⟨hM, min_le_right _ _⟩

/-! ### Constant-sequence lemmas (no-detection degeneration) -/

theorem getD_replicate_of_lt (n : Nat) (c : Int) (i : Nat) (h : i < n) :
    (List.replicate n c).getD i 0 = c := by
  rw [List.getD_eq_getElem?_getD, List.getElem?_replicate, if_pos h]
  rfl

theorem map_range_const {α : Type} (n : Nat) (f : Nat → α) (c : α)
    (h : ∀ i < n, f i = c) : (List.range n).map f = List.replicate n c := by
  induction n with
  | zero => rfl
  | succ m ih =>
      rw [List.range_succ, List.map_append, ih (fun i hi => h i (by omega))]
      simp [h m (Nat.lt_succ_self m), List.replicate_succ']

/-- With an all-empty face signal the analysis pass carries the initial
center target forward on every frame. -/
theorem analyzePositions_no_faces (n : Nat) (origW cropW : Int) :
    analyzePositions (List.replicate n []) origW cropW =
      List.replicate n (clampCrop origW cropW (Int.tdiv (origW - cropW) 2)) := by
  have key : ∀ (m : Nat) (done : List Int),
      ((List.replicate m ([] : List FaceBox)).foldl
        (fun acc faces =>
          ((analyzeStep origW cropW acc.1 faces).1,
           acc.2 ++ [(analyzeStep origW cropW acc.1 faces).2]))
        (origW, done)).2 =
      done ++ List.replicate m (clampCrop origW cropW (Int.tdiv (origW - cropW) 2)) := by
    intro m
    induction m with
    | zero => intro done; simp
    | succ k ih =>
        intro done
        rw [List.replicate_succ, List.foldl_cons]
        have hstep : analyzeStep origW cropW origW ([] : List FaceBox) =
            (origW, clampCrop origW cropW (Int.tdiv (origW - cropW) 2)) := by
          unfold analyzeStep faceTarget largestFace
          rfl
        rw [hstep]
        rw [ih (done ++ [clampCrop origW cropW (Int.tdiv (origW - cropW) 2)])]
        rw [List.append_assoc]
        rw [List.singleton_append, ← List.replicate_succ]
  unfold analyzePositions
  simpa using key n []

theorem smoothPass_replicate (n : Nat) (c : Int) :
    smoothPass (List.replicate n c) = List.replicate n c := by
  unfold smoothPass
  rw [List.length_replicate]
  apply map_range_const
  intro i hi
  unfold smoothWindow
  rw [List.drop_replicate, List.take_replicate, List.length_replicate]
  apply medTrunc_replicate
  omega

theorem shotLoop_no_drift (s : List Int)
    (h : ∀ i < s.length, (s.getD i 0 - s.getD 0 0).natAbs ≤ 250) :
    shotLoop s = ([], 0) := by
  unfold shotLoop
  refine foldl_range_inv (P := fun acc : List Int × Nat => acc = ([], 0))
    s.length _ _ rfl ?_
  intro acc i hi hacc
  subst hacc
  have hle := h i hi
  unfold shotLockStep
  dsimp only
  split
  · rw [if_neg (by omega)]
  · rfl

theorem shot_lock_no_drift (s : List Int)
    (h : ∀ i < s.length, (s.getD i 0 - s.getD 0 0).natAbs ≤ 250) :
    shot_lock s = List.replicate s.length (medTrunc s) := by
  have hfinal : lockedFinal s = List.replicate s.length (medTrunc s) := by
    unfold lockedFinal
    rw [shotLoop_no_drift s h]
    dsimp only
    rw [List.drop_zero]
    by_cases hn : s.length = 0
    · have hnil : s = [] := List.length_eq_zero.mp hn
      subst hnil
      simp
    · rw [if_pos hn]
      exact List.nil_append _
  unfold shot_lock
  rw [hfinal]
  by_cases hn : s.length = 0
  · have hnil : s = [] := List.length_eq_zero.mp hn
    subst hnil
    simp
  · rw [if_pos (by simpa using hn)]

theorem shot_lock_replicate (n : Nat) (c : Int) :
    shot_lock (List.replicate n c) = List.replicate n c := by
  have h : ∀ i < (List.replicate n c).length,
      (((List.replicate n c).getD i 0) - ((List.replicate n c).getD 0 0)).natAbs ≤ 250 := by
    intro i hi
    rw [List.length_replicate] at hi
    rw [getD_replicate_of_lt n c i hi, getD_replicate_of_lt n c 0 (by omega)]
    simp
  rw [shot_lock_no_drift _ h, List.length_replicate]
  cases n with
  | zero => rfl
  | succ m => rw [medTrunc_replicate _ _ (Nat.succ_pos m)]

/-! ### Claim theorems for the crop planner -/

/-- C1: for every run of the Stabilized Crop Planner (the analysis pass of
`convert_to_portrait` followed by `stabilize_positions`), every element `x`
of the resulting crop-position sequence satisfies
`0 ≤ x ≤ sourceWidth - cropWidth`; in particular, for every input list whose
elements all lie in `[0, sourceWidth - cropWidth]`, every element of
`stabilize_positions`' output also lies in that interval. -/
theorem C1_crop_offset_invariant (origW cropW : Int) (hcw : cropW ≤ origW) :
    (∀ faceSignal : List (List FaceBox),
        ∀ x ∈ stabilize_positions (analyzePositions faceSignal origW cropW),
          0 ≤ x ∧ x ≤ origW - cropW) ∧
    (∀ positions : List Int,
        (∀ x ∈ positions, 0 ≤ x ∧ x ≤ origW - cropW) →
        ∀ x ∈ stabilize_positions positions, 0 ≤ x ∧ x ≤ origW - cropW) := by
  have hM : (0 : Int) ≤ origW - cropW := by omega
  constructor
  · intro faceSignal
    exact stabilize_bounds hM _ (analyzePositions_bounds faceSignal origW cropW hM)
  · intro positions hp
    exact stabilize_bounds hM positions hp

/-- Witness for C1 at a concrete 1920×1080 source (crop width 1080, so the
offsets must lie in `[0, 840]`): the first planned offset of a two-frame
clip with one detection is in range. -/
theorem C1_crop_offset_invariant_witness :
    0 ≤ (stabilize_positions
          (analyzePositions [[FaceBox.mk 100 50 200 200], []] 1920 1080)).getD 0 0 ∧
    (stabilize_positions
          (analyzePositions [[FaceBox.mk 100 50 200 200], []] 1920 1080)).getD 0 0 ≤
      1920 - 1080 :=
  (C1_crop_offset_invariant 1920 1080 (by norm_num)).1
    [[FaceBox.mk 100 50 200 200], []] _ (by decide)

/-- C7: on a face signal with no detections at all, the planner degenerates
to a single constant shot, every offset equal to the frame-centered
`(sourceWidth - cropWidth)/2` (`int()` of the exact float, i.e. `Int.tdiv`). -/
theorem C7_no_detection_centered (n : Nat) (origW cropW : Int)
    (hcw : cropW ≤ origW) :
    stabilize_positions (analyzePositions (List.replicate n []) origW cropW) =
      List.replicate n (Int.tdiv (origW - cropW) 2) := by
  have hM : (0 : Int) ≤ origW - cropW := by omega
  have hclamp : clampCrop origW cropW (Int.tdiv (origW - cropW) 2) =
      Int.tdiv (origW - cropW) 2 := by
    have h1 : 0 ≤ Int.tdiv (origW - cropW) 2 := Int.tdiv_nonneg hM (by norm_num)
    have h2 : Int.tdiv (origW - cropW) 2 ≤ origW - cropW := by
      rw [Int.tdiv_eq_ediv hM (by norm_num)]
      exact Int.ediv_le_self _ hM
    unfold clampCrop
    omega
  rw [analyzePositions_no_faces, hclamp]
  unfold stabilize_positions
  by_cases hn : n = 0
  · subst hn
    simp
  · rw [if_neg (by simpa using hn), smoothPass_replicate, shot_lock_replicate]

/-- Witness for C7: three frames of a 1920×1080 source with no detections
give the constant centered offset `(1920 - 1080) / 2 = 420`. -/
theorem C7_no_detection_centered_witness :
    stabilize_positions (analyzePositions (List.replicate 3 []) 1920 1080) =
      List.replicate 3 420 := by
  rw [C7_no_detection_centered 3 1920 1080 (by norm_num)]
  decide

/-- The smoothed sequence refuting idempotence of shot locking: one frame at
offset 0, then 89 frames at 300, then 90 frames at 260.  The first run locks
shots `[0:90] → 300` and `[90:180] → 260` (the boundary at frame 90 fires
because `|260 - 0| > 250`), but the two shot medians differ by only 40, so a
second run sees no boundary and collapses everything to one shot of median
`280`. -/
def shotCex : List Int := [0] ++ List.replicate 89 300 ++ List.replicate 90 260

set_option maxRecDepth 10000 in
set_option maxHeartbeats 1000000 in
/-- C2 counterexample: shot locking (pass 3 of `stabilize_positions`) is not
idempotent — on `shotCex` the second application changes the sequence. -/
theorem C2_counterexample : shot_lock (shot_lock shotCex) ≠ shot_lock shotCex := by
  decide

/-- C2 amended: shot locking is idempotent on every input that yields a
single shot — in particular whenever no offset drifts more than the 250 px
threshold from the first offset, so that no shot boundary ever fires; the
output is then one constant shot, which shot locking leaves unchanged.  (In
general pass 3 is not idempotent, see the counterexample.) -/
theorem C2_shot_lock_idempotent_single_shot (s : List Int)
    (h : ∀ i < s.length, (s.getD i 0 - s.getD 0 0).natAbs ≤ 250) :
    shot_lock (shot_lock s) = shot_lock s := by
  rw [shot_lock_no_drift s h]
  exact shot_lock_replicate _ _

/-- Witness for the amended C2 on a concrete single-shot input. -/
theorem C2_shot_lock_idempotent_single_shot_witness :
    shot_lock (shot_lock [100, 300, 200]) = shot_lock [100, 300, 200] :=
  C2_shot_lock_idempotent_single_shot [100, 300, 200] (by decide)

/-! ## Highlight Selector — `find_highlights` duration filter -/

/-- An SRT-style timestamp string `HH:MM:SS,mmm` after `parse_timestamp`
splits it on `:`; the seconds part (with its fractional milliseconds) is an
exact decimal, carried as ℚ. -/
structure SrtTime where
  hh : Nat
  mm : Nat
  ss : ℚ
deriving DecidableEq, Repr

/-- `parse_timestamp` (lines 860–864): `int(h)*3600 + int(m)*60 + float(s)`. -/
def parse_timestamp (t : SrtTime) : ℚ := t.hh * 3600 + t.mm * 60 + t.ss

/-- One candidate object of the parsed model response (after `json.loads`);
only the fields the duration filter reads. -/
structure HighlightC where
  start_time : SrtTime
  end_time : SrtTime
deriving DecidableEq, Repr

/-- `duration = self.parse_timestamp(h["end_time"]) - self.parse_timestamp(h["start_time"])`. -/
def durationSeconds (h : HighlightC) : ℚ :=
  parse_timestamp h.end_time - parse_timestamp h.start_time

/-- The acceptance loop of `find_highlights` (lines 267–277): append when
`duration >= 58`; after each candidate (accepted or not) break as soon as
`len(valid) >= num_clips`. -/
def acceptLoop (numClips : Nat) (valid : List HighlightC) :
    List HighlightC → List HighlightC
  | [] => valid
  | h :: rest =>
    if 58 ≤ durationSeconds h then
      if numClips ≤ (valid ++ [h]).length then valid ++ [h]
      else acceptLoop numClips (valid ++ [h]) rest
    else
      if numClips ≤ valid.length then valid
      else acceptLoop numClips valid rest

/-- The value returned by `find_highlights` (line 278): the accepted list
truncated to `valid[:num_clips]`. -/
def find_highlights (numClips : Nat) (highlights : List HighlightC) :
    List HighlightC :=
  (acceptLoop numClips [] highlights).take numClips

theorem acceptLoop_take (numClips : Nat) :
    ∀ (l : List HighlightC) (valid : List HighlightC),
      valid.length ≤ numClips →
      (acceptLoop numClips valid l).take numClips =
        (valid ++ l.filter (fun h => 58 ≤ durationSeconds h)).take numClips := by
  intro l
  induction l with
  | nil =>
      intro valid hv
      simp [acceptLoop]
  | cons h rest ih =>
      intro valid hv
      by_cases hd : 58 ≤ durationSeconds h
      · rw [List.filter_cons_of_pos (by simpa using hd)]
        unfold acceptLoop
        rw [if_pos hd]
        by_cases hbreak : numClips ≤ (valid ++ [h]).length
        · rw [if_pos hbreak]
          rw [List.length_append, List.length_singleton] at hbreak
          have hn : numClips = valid.length ∨ numClips = valid.length + 1 := by
            omega
          rcases hn with hn | hn
          · subst hn
            rw [List.take_append_of_le_length (le_refl _),
              List.take_append_of_le_length (le_refl _)]
          · subst hn
            have hr : valid ++ h ::
                List.filter (fun h => decide (58 ≤ durationSeconds h)) rest =
                (valid ++ [h]) ++
                  List.filter (fun h => decide (58 ≤ durationSeconds h)) rest := by
              simp
            have hlen : (valid ++ [h]).length = valid.length + 1 := by simp
            have hLHS : List.take (valid.length + 1) (valid ++ [h]) =
                valid ++ [h] := List.take_of_length_le (by simp)
            have hRHS : List.take (valid.length + 1) (valid ++ h ::
                List.filter (fun h => decide (58 ≤ durationSeconds h)) rest) =
                valid ++ [h] := by
              rw [hr, ← hlen, List.take_left]
            rw [hLHS, hRHS]
        · rw [if_neg hbreak]
          rw [ih (valid ++ [h]) (by simp at hbreak ⊢; omega)]
          simp
      · rw [List.filter_cons_of_neg (by simpa using hd)]
        unfold acceptLoop
        rw [if_neg hd]
        by_cases hbreak : numClips ≤ valid.length
        · rw [if_pos hbreak]
          have hn : numClips = valid.length := by omega
          subst hn
          rw [List.take_append_of_le_length (le_refl _)]
        · rw [if_neg hbreak]
          exact ih valid (by omega)

/-- `find_highlights` keeps, in response order, exactly the candidates with
duration at least 58 seconds, truncated to the first `count` accepted. -/
theorem find_highlights_eq_take_filter (numClips : Nat)
    (highlights : List HighlightC) :
    find_highlights numClips highlights =
      (highlights.filter (fun h => 58 ≤ durationSeconds h)).take numClips := by
  unfold find_highlights
  rw [acceptLoop_take numClips highlights [] (Nat.zero_le _)]
  simp

/-- C5: for every parsed model response array and requested count,
`find_highlights` accepts exactly those candidates, in the response's order
with no re-ranking, whose duration
`parse_timestamp(end) - parse_timestamp(start)` is ≥ 58 seconds, and stops
accepting exactly when `count` candidates have been accepted — i.e. it
returns the 58-second filter of the response truncated to the first `count`
survivors.  (A 57.9 s candidate fails `58 ≤ d`, a 58.0 s candidate passes.) -/
theorem C5_duration_filter (numClips : Nat) (highlights : List HighlightC) :
    find_highlights numClips highlights =
      (highlights.filter (fun h => 58 ≤ durationSeconds h)).take numClips :=
  find_highlights_eq_take_filter numClips highlights

/-- A candidate spanning `00:00:00,000 → 00:05:00,000` — 300 seconds, far
above the prompt's 120-second ceiling. -/
def longCandidate : HighlightC := ⟨⟨0, 0, 0⟩, ⟨0, 5, 0⟩⟩

/-- C6 counterexample: `find_highlights` enforces no upper duration bound —
a 300-second candidate survives validation, so the claimed invariant
`duration_seconds ∈ [58, 120]` fails on the code (the 120-second maximum
lives only in the prompt text, not in the filter). -/
theorem C6_counterexample :
    longCandidate ∈ find_highlights 1 [longCandidate] ∧
      ¬ durationSeconds longCandidate ≤ 120 := by
  have hdur : (58 : ℚ) ≤ durationSeconds longCandidate := by
    norm_num [durationSeconds, parse_timestamp, longCandidate]
  constructor
  · rw [find_highlights_eq_take_filter]
    rw [show [longCandidate] = longCandidate :: [] from rfl,
      List.filter_cons_of_pos (by simpa using hdur)]
    simp
  · norm_num [durationSeconds, parse_timestamp, longCandidate]

/-- C6 amended: every highlight that survives validation satisfies only the
lower bound `58 ≤ duration_seconds`; the upper bound 120 is not checked by
the code. -/
theorem C6_validated_duration_lower_bound (numClips : Nat)
    (highlights : List HighlightC) (h : HighlightC)
    (hmem : h ∈ find_highlights numClips highlights) :
    58 ≤ durationSeconds h := by
  rw [find_highlights_eq_take_filter] at hmem
  have hf := List.mem_of_mem_take hmem
  have := (List.mem_filter.mp hf).2
  simpa using this

/-- Witness for the amended C6 on a one-minute candidate. -/
theorem C6_validated_duration_lower_bound_witness :
    58 ≤ durationSeconds (⟨⟨0, 0, 0⟩, ⟨0, 1, 0⟩⟩ : HighlightC) :=
  C6_validated_duration_lower_bound 1 [⟨⟨0, 0, 0⟩, ⟨0, 1, 0⟩⟩]
    ⟨⟨0, 0, 0⟩, ⟨0, 1, 0⟩⟩ (by
      rw [find_highlights_eq_take_filter]
      rw [show [(⟨⟨0, 0, 0⟩, ⟨0, 1, 0⟩⟩ : HighlightC)] =
        (⟨⟨0, 0, 0⟩, ⟨0, 1, 0⟩⟩ : HighlightC) :: [] from rfl,
        List.filter_cons_of_pos (by
          simp only [decide_eq_true_eq]
          norm_num [durationSeconds, parse_timestamp])]
      simp)

/-! ## Clip Pipeline / Orchestrator — cancellation, artifacts, cleanup

`process` (lines 77–89: the per-clip loop, `cleanup`, completion) and
`process_clip` (lines 280–365) are modelled as a state machine over the
files and directories they create.  Cancellation is cooperative:
`self.is_cancelled()` is polled at the top of each loop iteration and at
five points inside `process_clip` (entry and before each of the four
steps); polls are numbered from 0 in the order they happen, and the flag,
once set by the UI, stays set — so a cancellation request is a poll index
`cancelAt` from which every poll returns true.  Each `is_cancelled()` hit
inside the loop or a clip is a plain `return` (no exception, nothing
removed).  The four external per-clip steps (cut, portrait conversion,
hook, captions) may raise (e.g. an API error inside `add_hook`);
`failAt = some (i, st)` makes step `st` of clip `i` raise before its
artifact is produced.  `process` has no try/finally, so such an exception
propagates out of `process` and `cleanup` is skipped. -/

/-- A file-system artifact the orchestrator creates: the per-run `_temp`
directory, and per clip its output directory, the three temporary
intermediates `temp_landscape.mp4` / `temp_portrait.mp4` / `temp_hooked.mp4`,
the final `master.mp4` and the `data.json` metadata record. -/
inductive Artifact
  | tempDir
  | clipDir (i : Nat)
  | landscape (i : Nat)
  | portrait (i : Nat)
  | hooked (i : Nat)
  | master (i : Nat)
  | dataJson (i : Nat)
deriving DecidableEq, Repr

/-- Environment of one `process` run: number of accepted highlights, the
poll index from which `is_cancelled()` returns true (if any), and the
clip/step at which the external chain raises (if any). -/
structure RunEnv where
  n : Nat
  cancelAt : Option Nat
  failAt : Option (Nat × Nat)
deriving DecidableEq, Repr

/-- Mutable state: number of cancellation polls made so far and the
artifacts currently on disk. -/
structure PState where
  polls : Nat
  artifacts : List Artifact
deriving DecidableEq, Repr

/-- `self.is_cancelled()` at poll index `t`. -/
def isCanc (env : RunEnv) (t : Nat) : Bool :=
  match env.cancelAt with
  | some c => decide (c ≤ t)
  | none => false

def addArt (s : PState) (a : Artifact) : PState :=
  { s with artifacts := s.artifacts ++ [a] }

/-- `Path.unlink(missing_ok=True)` / `shutil.rmtree`. -/
def removeArt (s : PState) (a : Artifact) : PState :=
  { s with artifacts := s.artifacts.filter (fun b => b ≠ a) }

def tick (s : PState) : PState := { s with polls := s.polls + 1 }

/-- The four kinds of statement `process_clip` executes between polls. -/
inductive Act
  | poll
  | mk (a : Artifact)
  | ext (st : Nat) (a : Artifact)
  | rm (a : Artifact)
deriving DecidableEq, Repr

/-- The statement sequence of `process_clip` for clip `i` (1-based):
cancellation poll on entry (line 284), `clip_dir.mkdir`, then for each of
the four steps a poll followed by the external invocation producing the
step's artifact; on success the three temp intermediates are unlinked and
`data.json` is written. -/
def clipProg (i : Nat) : List Act :=
  [Act.poll, Act.mk (Artifact.clipDir i),
   Act.poll, Act.ext 1 (Artifact.landscape i),
   Act.poll, Act.ext 2 (Artifact.portrait i),
   Act.poll, Act.ext 3 (Artifact.hooked i),
   Act.poll, Act.ext 4 (Artifact.master i),
   Act.rm (Artifact.landscape i), Act.rm (Artifact.portrait i),
   Act.rm (Artifact.hooked i),
   Act.mk (Artifact.dataJson i)]

/-- Interpreter for a statement sequence of clip `i`: a true poll is a
plain `return` (`Except.ok` with nothing removed), a failing external step
raises (`Except.error`). -/
def runActs (env : RunEnv) (i : Nat) : List Act → PState → Except PState PState
  | [], s => Except.ok s
  | Act.poll :: rest, s =>
      if isCanc env s.polls then Except.ok (tick s)
      else runActs env i rest (tick s)
  | Act.mk a :: rest, s => runActs env i rest (addArt s a)
  | Act.ext st a :: rest, s =>
      if env.failAt = some (i, st) then Except.error s
      else runActs env i rest (addArt s a)
  | Act.rm a :: rest, s => runActs env i rest (removeArt s a)

/-- `process_clip` for clip `i`. -/
def process_clip (env : RunEnv) (i : Nat) (s : PState) :
    Except PState PState :=
  runActs env i (clipProg i) s

/-- How the per-clip loop of `process` ends. -/
inductive LoopRes
  | finished (s : PState)
  | early (s : PState)
  | raised (s : PState)
deriving DecidableEq, Repr

/-- The `for i, highlight in enumerate(highlights, 1)` loop of `process`:
poll at the top of each iteration (`return` when true); an exception from
`process_clip` propagates; an early `return` inside `process_clip` does NOT
stop the loop — the next iteration's poll does. -/
def clipLoop (env : RunEnv) : List Nat → PState → LoopRes
  | [], s => LoopRes.finished s
  | i :: rest, s =>
      if isCanc env s.polls then LoopRes.early (tick s)
      else match process_clip env i (tick s) with
        | Except.error e => LoopRes.raised e
        | Except.ok s2 => clipLoop env rest s2

/-- How a `process` run ends: normal completion (after `cleanup` and the
"Complete!" report), a silent early return on cancellation (no `cleanup`),
or an exception propagating out (no `cleanup`). -/
inductive RunOutcome
  | completed
  | returnedEarly
  | raisedError
deriving DecidableEq, Repr

/-- The clip phase of `process` (steps already done: download, highlights):
initially only the `_temp` dir exists; run the loop over clips `1..n`;
only the `finished` path reaches `self.cleanup()` (which removes `_temp`)
and the final "Complete!" report. -/
def process (env : RunEnv) : RunOutcome × List Artifact :=
  match clipLoop env (List.range' 1 env.n)
      { polls := 0, artifacts := [Artifact.tempDir] } with
  | LoopRes.finished s =>
      (RunOutcome.completed, (removeArt s Artifact.tempDir).artifacts)
  | LoopRes.early s => (RunOutcome.returnedEarly, s.artifacts)
  | LoopRes.raised s => (RunOutcome.raisedError, s.artifacts)

/-- The full artifact set of a successfully finished clip. -/
def doneArtsR (start m : Nat) : List Artifact :=
  (List.range' start m).flatMap
    (fun i => [Artifact.clipDir i, Artifact.master i, Artifact.dataJson i])

/-- What is left of clip `k` when cancellation hits its `j`-th poll
(0 = entry, 1 = before cut, …, 4 = before captions): everything created
before that poll stays, nothing is unlinked. -/
def partialArts (k j : Nat) : List Artifact :=
  (if 1 ≤ j then [Artifact.clipDir k] else []) ++
  (if 2 ≤ j then [Artifact.landscape k] else []) ++
  (if 3 ≤ j then [Artifact.portrait k] else []) ++
  (if 4 ≤ j then [Artifact.hooked k] else [])

/-- Artifacts that are never an intermediate temp file. -/
def noTemp (a : Artifact) : Prop :=
  ∀ i, a ≠ Artifact.landscape i ∧ a ≠ Artifact.portrait i ∧
    a ≠ Artifact.hooked i

/-! ### Orchestrator lemmas -/

theorem filter_of_ne (A : List Artifact) (a : Artifact)
    (hA : ∀ x ∈ A, x ≠ a) : A.filter (fun b => b ≠ a) = A :=
  List.filter_eq_self.mpr (fun x hx => by simpa using hA x hx)

/-- A completed `process_clip`: no cancellation during its five polls, no
failing step for this clip — it adds the clip directory, the master file
and the metadata record, removes its three temp files, and makes five
polls. -/
theorem process_clip_ok (env : RunEnv) (i : Nat) (s : PState)
    (hc : ∀ t, t < s.polls + 5 → isCanc env t = false)
    (hf : ∀ st, env.failAt ≠ some (i, st))
    (ht : ∀ a ∈ s.artifacts, noTemp a) :
    process_clip env i s = Except.ok
      { polls := s.polls + 5,
        artifacts := s.artifacts ++
          [Artifact.clipDir i, Artifact.master i, Artifact.dataJson i] } := by
  have hc0 := hc s.polls (by omega)
  have hc1 := hc (s.polls + 1) (by omega)
  have hc2 := hc (s.polls + 2) (by omega)
  have hc3 := hc (s.polls + 3) (by omega)
  have hc4 := hc (s.polls + 4) (by omega)
  unfold process_clip clipProg
  simp only [runActs, tick, addArt, removeArt, hc0, hc1, hc2, hc3, hc4,
    if_neg (hf 1), if_neg (hf 2), if_neg (hf 3), if_neg (hf 4),
    Bool.false_eq_true, if_false]
  have hpolls : s.polls + 1 + 1 + 1 + 1 + 1 = s.polls + 5 := by omega
  rw [hpolls]
  have h1 : s.artifacts.filter (fun b => b ≠ Artifact.landscape i) =
      s.artifacts := filter_of_ne _ _ (fun x hx => (ht x hx i).1)
  have h2 : s.artifacts.filter (fun b => b ≠ Artifact.portrait i) =
      s.artifacts := filter_of_ne _ _ (fun x hx => (ht x hx i).2.1)
  have h3 : s.artifacts.filter (fun b => b ≠ Artifact.hooked i) =
      s.artifacts := filter_of_ne _ _ (fun x hx => (ht x hx i).2.2)
  simp [List.filter_append, h1, h2, h3]
  exact fun a ha => ⟨(ht a ha i).2.2, (ht a ha i).2.1, (ht a ha i).1⟩

/-- A `process_clip` interrupted by cancellation at its `j`-th poll
(0-based): a plain `return` with the artifacts created so far kept and
nothing unlinked. -/
theorem process_clip_cancel (env : RunEnv) (i : Nat) (s : PState) (j : Nat)
    (hj : j ≤ 4) (hcEq : env.cancelAt = some (s.polls + j))
    (hf : env.failAt = none) :
    process_clip env i s = Except.ok
      { polls := s.polls + (j + 1),
        artifacts := s.artifacts ++ partialArts i j } := by
  have hcT : ∀ t, s.polls + j ≤ t → isCanc env t = true := fun t ht2 => by
    simp [isCanc, hcEq, ht2]
  have hcF : ∀ t, t < s.polls + j → isCanc env t = false := fun t ht2 => by
    simp only [isCanc, hcEq, decide_eq_false_iff_not]
    omega
  unfold process_clip clipProg
  interval_cases j
  · simp only [runActs, hcT s.polls (by omega), if_true]
    simp [tick, partialArts]
  · simp only [runActs, tick, addArt, hf, hcF s.polls (by omega),
      hcT (s.polls + 1) (by omega), Bool.false_eq_true, if_false, if_true,
      reduceCtorEq]
    simp [partialArts, Nat.add_assoc]
  · simp only [runActs, tick, addArt, hf, hcF s.polls (by omega),
      hcF (s.polls + 1) (by omega), hcT (s.polls + 2) (by omega),
      Bool.false_eq_true, if_false, if_true, reduceCtorEq]
    simp [partialArts, Nat.add_assoc]
  · simp only [runActs, tick, addArt, hf, hcF s.polls (by omega),
      hcF (s.polls + 1) (by omega), hcF (s.polls + 2) (by omega),
      hcT (s.polls + 3) (by omega), Bool.false_eq_true, if_false, if_true,
      reduceCtorEq]
    simp [partialArts, Nat.add_assoc]
  · simp only [runActs, tick, addArt, hf, hcF s.polls (by omega),
      hcF (s.polls + 1) (by omega), hcF (s.polls + 2) (by omega),
      hcF (s.polls + 3) (by omega), hcT (s.polls + 4) (by omega),
      Bool.false_eq_true, if_false, if_true, reduceCtorEq]
    simp [partialArts, Nat.add_assoc]

/-- A `process_clip` whose step `st` raises (no cancellation): the
exception propagates with every pre-existing artifact still present. -/
theorem process_clip_fail (env : RunEnv) (i st : Nat) (s : PState)
    (hst1 : 1 ≤ st) (hst4 : st ≤ 4)
    (hc : ∀ t, t < s.polls + 5 → isCanc env t = false)
    (hfe : env.failAt = some (i, st)) :
    ∃ e : PState, process_clip env i s = Except.error e ∧
      ∀ a ∈ s.artifacts, a ∈ e.artifacts := by
  have hc0 := hc s.polls (by omega)
  have hc1 := hc (s.polls + 1) (by omega)
  have hc2 := hc (s.polls + 2) (by omega)
  have hc3 := hc (s.polls + 3) (by omega)
  have hne : ∀ st2, st2 ≠ st → env.failAt ≠ some (i, st2) := by
    intro st2 hne2
    simp [hfe]
    omega
  unfold process_clip clipProg
  interval_cases st
  · refine ⟨{ polls := s.polls + 2, artifacts := s.artifacts ++ [Artifact.clipDir i] },
      ?_, fun a ha => List.mem_append_left _ ha⟩
    simp only [runActs, tick, addArt, hc0, hc1, Bool.false_eq_true, if_false,
      hfe, if_pos]
  · refine ⟨PState.mk (s.polls + 3)
        (s.artifacts ++ [Artifact.clipDir i, Artifact.landscape i]),
      ?_, fun a ha => List.mem_append_left _ ha⟩
    simp only [runActs, tick, addArt, hc0, hc1, hc2, Bool.false_eq_true,
      if_false, if_neg (hne 1 (by omega)), hfe, if_pos]
    simp [Nat.add_assoc]
  · refine ⟨PState.mk (s.polls + 4)
        (s.artifacts ++
          [Artifact.clipDir i, Artifact.landscape i, Artifact.portrait i]),
      ?_, fun a ha => List.mem_append_left _ ha⟩
    simp only [runActs, tick, addArt, hc0, hc1, hc2, hc3, Bool.false_eq_true,
      if_false, if_neg (hne 1 (by omega)), if_neg (hne 2 (by omega)), hfe,
      if_pos]
    simp [Nat.add_assoc]
  · refine ⟨PState.mk (s.polls + 5)
        (s.artifacts ++ [Artifact.clipDir i, Artifact.landscape i,
          Artifact.portrait i, Artifact.hooked i]),
      ?_, fun a ha => List.mem_append_left _ ha⟩
    simp only [runActs, tick, addArt, hc0, hc1, hc2, hc3,
      hc (s.polls + 4) (by omega), Bool.false_eq_true, if_false,
      if_neg (hne 1 (by omega)), if_neg (hne 2 (by omega)),
      if_neg (hne 3 (by omega)), hfe, if_pos]
    simp [Nat.add_assoc]

theorem clipLoop_append (env : RunEnv) (l1 l2 : List Nat) (s : PState) :
    clipLoop env (l1 ++ l2) s =
      match clipLoop env l1 s with
      | LoopRes.finished s2 => clipLoop env l2 s2
      | r => r := by
  induction l1 generalizing s with
  | nil => simp [clipLoop]
  | cons i rest ih =>
      simp only [List.cons_append, clipLoop]
      split
      · rfl
      · split
        · rfl
        · exact ih _

/-- The loop runs clips `start .. start+m-1` to completion when no
cancellation fires during their `6*m` polls and none of them fails. -/
theorem clipLoop_all_ok (env : RunEnv) :
    ∀ (m start : Nat) (s : PState),
      (∀ t, t < s.polls + 6 * m → isCanc env t = false) →
      (∀ i, i ∈ List.range' start m → ∀ st, env.failAt ≠ some (i, st)) →
      (∀ a ∈ s.artifacts, noTemp a) →
      clipLoop env (List.range' start m) s =
        LoopRes.finished
          { polls := s.polls + 6 * m,
            artifacts := s.artifacts ++ doneArtsR start m } := by
  intro m
  induction m with
  | zero =>
      intro start s hc hf ht
      simp [clipLoop, doneArtsR]
  | succ m ih =>
      intro start s hc hf ht
      rw [List.range'_succ]
      simp only [clipLoop, hc s.polls (by omega), Bool.false_eq_true, if_false]
      rw [process_clip_ok env start (tick s)
        (by intro t ht2; simp only [tick] at ht2; exact hc t (by omega))
        (fun st => hf start (by rw [List.range'_succ]; exact List.mem_cons_self start _) st)
        (by simpa [tick] using ht)]
      dsimp only
      rw [ih (start + 1)
        { polls := (tick s).polls + 5,
          artifacts := (tick s).artifacts ++
            [Artifact.clipDir start, Artifact.master start, Artifact.dataJson start] }
        (by intro t ht2; simp only [tick] at ht2; exact hc t (by omega))
        (by
          intro i hi st
          exact hf i (by rw [List.range'_succ]; exact List.mem_cons_of_mem start hi) st)
        (by
          intro a ha
          simp only [tick, List.mem_append, List.mem_cons,
            List.not_mem_nil, or_false] at ha
          rcases ha with ha | rfl | rfl | rfl
          · exact ht a ha
          · simp [noTemp]
          · simp [noTemp]
          · simp [noTemp])]
      have hpolls : s.polls + 1 + 5 + 6 * m = s.polls + 6 * (m + 1) := by omega
      have harts : s.artifacts ++ [Artifact.clipDir start, Artifact.master start,
          Artifact.dataJson start] ++ doneArtsR (start + 1) m =
          s.artifacts ++ doneArtsR start (m + 1) := by
        rw [List.append_assoc]
        congr 1
      simp only [tick, hpolls, harts]

theorem mem_partialArts {k j : Nat} {a : Artifact} (h : a ∈ partialArts k j) :
    a = Artifact.clipDir k ∨ a = Artifact.landscape k ∨
      a = Artifact.portrait k ∨ a = Artifact.hooked k := by
  unfold partialArts at h
  split_ifs at h <;> simp_all <;> tauto

theorem mem_doneArtsR {start m : Nat} {a : Artifact} (h : a ∈ doneArtsR start m) :
    ∃ i, start ≤ i ∧ i < start + m ∧
      (a = Artifact.clipDir i ∨ a = Artifact.master i ∨
        a = Artifact.dataJson i) := by
  unfold doneArtsR at h
  obtain ⟨i, hi, hmem⟩ := List.mem_flatMap.mp h
  obtain ⟨h1, h2⟩ := List.mem_range'_1.mp hi
  refine ⟨i, h1, by omega, ?_⟩
  simpa using hmem

/-- The run state of `process` after clips `1 .. k-1` completed, under a
cancellation request at poll `6*(k-1)+1+j` (the `j`-th poll inside clip `k`)
and no failing step. -/
theorem process_cancel_mid_clip (n k j : Nat) (h1k : 1 ≤ k) (hkn : k < n)
    (hj : j ≤ 4) :
    process ⟨n, some (6 * (k - 1) + 1 + j), none⟩ =
      (RunOutcome.returnedEarly,
        Artifact.tempDir :: (doneArtsR 1 (k - 1) ++ partialArts k j)) := by
  have hsplit : List.range' 1 n =
      List.range' 1 (k - 1) ++ List.range' k (n - k + 1) := by
    have happ := List.range'_append 1 (k - 1) (n - k + 1) 1
    have e1 : 1 + 1 * (k - 1) = k := by omega
    have e2 : n - k + 1 + (k - 1) = n := by omega
    rw [e1, e2] at happ
    exact happ.symm
  unfold process
  simp only [hsplit]
  rw [clipLoop_append]
  rw [clipLoop_all_ok _ (k - 1) 1 _
    (by
      intro t ht2
      dsimp only at ht2
      simp only [isCanc, decide_eq_false_iff_not]
      omega)
    (by intro i hi st; simp)
    (by intro a ha; simp at ha; subst ha; simp [noTemp])]
  dsimp only
  have hrest : List.range' k (n - k + 1) = k :: List.range' (k + 1) (n - k) :=
    List.range'_succ k (n - k) 1
  rw [hrest]
  simp only [clipLoop]
  rw [if_neg (by simp only [isCanc, decide_eq_true_eq]; omega)]
  rw [process_clip_cancel _ k _ j hj
    (by
      simp only [tick]
      congr 1
      omega)
    rfl]
  dsimp only
  have hrest2 : List.range' (k + 1) (n - k) =
      (k + 1) :: List.range' (k + 2) (n - k - 1) := by
    have e3 : n - k = (n - k - 1) + 1 := by omega
    rw [e3]
    exact List.range'_succ (k + 1) (n - k - 1) 1
  rw [hrest2]
  simp only [clipLoop]
  rw [if_pos (by simp only [isCanc, decide_eq_true_eq, tick]; omega)]
  simp [tick]

/-- C3 counterexample: with 3 clips and cancellation becoming true mid-way
through clip 2 (at the poll before its portrait step, global poll 9),
`process` does NOT raise (it returns silently, `RunOutcome.returnedEarly` —
no exception of any kind, in particular no `CancelledError`), and clip 2's
temporary `temp_landscape.mp4` is NOT removed — it is still on disk at the
end, because the unlink lines at the end of `process_clip` are skipped by
the early `return`. -/
theorem C3_counterexample :
    (process ⟨3, some 9, none⟩).1 ≠ RunOutcome.raisedError ∧
      Artifact.landscape 2 ∈ (process ⟨3, some 9, none⟩).2 := by
  decide

/-- C3 amended: if the cancellation predicate becomes true mid-way through
clip `k` of `n` (`k < n`; at the `j`-th of clip `k`'s five polls),
`process` returns silently with no exception of any kind (no
`CancelledError`); clips `1..k-1` keep their full artifacts (directory,
`master.mp4`, `data.json`); clip `k`'s partial artifacts — everything it
created before the poll, including its temp intermediates — REMAIN on disk
(nothing of clip `k` is removed); clips `k+1..n` are never started (no
`clipDir i` for `i > k`); and the run-level `_temp` dir also remains since
`cleanup` is skipped. -/
theorem C3_cancel_mid_clip_amended (n k j : Nat) (h1k : 1 ≤ k) (hkn : k < n)
    (hj : j ≤ 4) :
    process ⟨n, some (6 * (k - 1) + 1 + j), none⟩ =
      (RunOutcome.returnedEarly,
        Artifact.tempDir :: (doneArtsR 1 (k - 1) ++ partialArts k j)) ∧
    (∀ i, k < i →
      Artifact.clipDir i ∉ (process ⟨n, some (6 * (k - 1) + 1 + j), none⟩).2) := by
  have heq := process_cancel_mid_clip n k j h1k hkn hj
  refine ⟨heq, ?_⟩
  intro i hi
  rw [heq]
  intro hmem
  simp only [List.mem_cons, List.mem_append] at hmem
  rcases hmem with h | h | h
  · exact absurd h (by simp)
  · obtain ⟨i2, hl, hr, hca⟩ := mem_doneArtsR h
    rcases hca with hca | hca | hca
    · simp only [Artifact.clipDir.injEq] at hca
      omega
    · exact absurd hca (by simp)
    · exact absurd hca (by simp)
  · rcases mem_partialArts h with hca | hca | hca | hca
    · simp only [Artifact.clipDir.injEq] at hca
      omega
    · exact absurd hca (by simp)
    · exact absurd hca (by simp)
    · exact absurd hca (by simp)

/-- Witness for the amended C3: 3 clips, cancellation at poll 9 (mid clip
2): silent early return; clip 1 complete, clip 2 left with its directory
and temp landscape file, clip 3 never started. -/
theorem C3_cancel_mid_clip_amended_witness :
    process ⟨3, some 9, none⟩ =
      (RunOutcome.returnedEarly,
        Artifact.tempDir :: (doneArtsR 1 1 ++ partialArts 2 2)) :=
  (C3_cancel_mid_clip_amended 3 2 2 (by norm_num) (by norm_num) (by norm_num)).1

/-- C8 counterexample: a run of one clip whose first step (the cut) raises:
the exception propagates out of `process` and the `_temp` directory is NOT
removed — `process` has no try/finally, so the run-scoped cleanup does not
run on the error path. -/
theorem C8_counterexample :
    (process ⟨1, none, some (1, 1)⟩).1 = RunOutcome.raisedError ∧
      Artifact.tempDir ∈ (process ⟨1, none, some (1, 1)⟩).2 := by
  decide

/-- C8 amended: the run-scoped cleanup (removal of `_temp`) runs only on
the success path: a run with no failure and no cancellation completes with
`_temp` removed, but when any step of any clip `k` fails, the exception
propagates out of `process` (`raisedError`) and `_temp` is still present at
the end — cleanup is NOT executed on the error path. -/
theorem C8_cleanup_only_on_success (n k st : Nat) (h1k : 1 ≤ k) (hkn : k ≤ n)
    (h1st : 1 ≤ st) (hst : st ≤ 4) :
    (process ⟨n, none, none⟩).1 = RunOutcome.completed ∧
    Artifact.tempDir ∉ (process ⟨n, none, none⟩).2 ∧
    (process ⟨n, none, some (k, st)⟩).1 = RunOutcome.raisedError ∧
    Artifact.tempDir ∈ (process ⟨n, none, some (k, st)⟩).2 := by
  have hok : process ⟨n, none, none⟩ =
      (RunOutcome.completed,
        List.filter (fun b => b ≠ Artifact.tempDir)
          ([Artifact.tempDir] ++ doneArtsR 1 n)) := by
    unfold process
    rw [clipLoop_all_ok _ n 1 _
      (by intro t ht2; rfl)
      (by intro i hi st2; simp)
      (by intro a ha; simp at ha; subst ha; simp [noTemp])]
    rfl
  have hsplit : List.range' 1 n =
      List.range' 1 (k - 1) ++ List.range' k (n - k + 1) := by
    have happ := List.range'_append 1 (k - 1) (n - k + 1) 1
    have e1 : 1 + 1 * (k - 1) = k := by omega
    have e2 : n - k + 1 + (k - 1) = n := by omega
    rw [e1, e2] at happ
    exact happ.symm
  have herr : (process ⟨n, none, some (k, st)⟩).1 = RunOutcome.raisedError ∧
      Artifact.tempDir ∈ (process ⟨n, none, some (k, st)⟩).2 := by
    unfold process
    rw [hsplit, clipLoop_append]
    rw [clipLoop_all_ok _ (k - 1) 1 _
      (by intro t ht2; rfl)
      (by
        intro i hi st2
        obtain ⟨hl, hr⟩ := List.mem_range'_1.mp hi
        simp only [ne_eq, Option.some.injEq, Prod.mk.injEq, not_and]
        intro h3
        omega)
      (by intro a ha; simp at ha; subst ha; simp [noTemp])]
    dsimp only
    rw [List.range'_succ k (n - k) 1]
    simp only [clipLoop]
    rw [if_neg (by simp [isCanc])]
    obtain ⟨e, he, hmem⟩ := process_clip_fail ⟨n, none, some (k, st)⟩ k st _
      h1st hst (by intro t ht2; rfl) rfl
    rw [he]
    refine ⟨rfl, hmem _ ?_⟩
    simp [tick]
  refine ⟨by rw [hok], ?_, herr.1, herr.2⟩
  rw [hok]
  simp

/-- Witness for the amended C8 at `n = k = st = 1`. -/
theorem C8_cleanup_only_on_success_witness :
    (process ⟨1, none, none⟩).1 = RunOutcome.completed ∧
    Artifact.tempDir ∉ (process ⟨1, none, none⟩).2 ∧
    (process ⟨1, none, some (1, 1)⟩).1 = RunOutcome.raisedError ∧
    Artifact.tempDir ∈ (process ⟨1, none, some (1, 1)⟩).2 :=
  C8_cleanup_only_on_success 1 1 1 (by norm_num) (by norm_num) (by norm_num)
    (by norm_num)

/-! ## Progress reporting

The fractions passed to `self.set_progress` over one full successful
`process` run, modelled exactly over ℚ.  `process` emits 0.1 before the
download; `download_video` then emits, for each parsed `[download] …%`
line, `0.05 + percent/100 * 0.2` (deduplicated against the previous
progress text) and 0.25 for each `[Merger]`/`Merging` line; `process`
emits 0.3 before highlight selection; `process_clip`'s `clip_progress`
emits `0.3 + 0.6*(i-1)/n + (0.6/n)*(step/4)` for steps 0..4 of clip `i`
of `n`; finally `process` emits 0.95 (cleanup) and 1.0 (complete). -/

/-- One progress-relevant line of the downloader's streamed output: a
percentage line (with its parsed percent value) or a merger line. -/
inductive DlEvent
  | pct (p : ℚ)
  | merger
deriving DecidableEq

/-- The fractions `download_video` emits; `last` is the percent of the
previous `Downloading: …%` text (`last_progress`), used for dedup. -/
def dlTrace : List DlEvent → Option ℚ → List ℚ
  | [], _ => []
  | DlEvent.pct p :: rest, last =>
      if some p = last then dlTrace rest last
      else (1/20 + p / 100 * (1/5)) :: dlTrace rest (some p)
  | DlEvent.merger :: rest, last => (1/4) :: dlTrace rest last

/-- `clip_progress` of `process_clip`: overall fraction of step `s` (of 4)
of clip `i` (1-based) among `total` clips. -/
def clip_progress (total i s : Nat) : ℚ :=
  3/10 + (3/5) * ((i : ℚ) - 1) / (total : ℚ) +
    ((3/5) / (total : ℚ)) * ((s : ℚ) / 4)

/-- The five per-clip emissions (steps 0,1,2,3 and the final "Done" 4). -/
def clipTrace (total i : Nat) : List ℚ :=
  (List.range 5).map (fun s => clip_progress total i s)

/-- All per-clip emissions of a run with `n` clips. -/
def clipTraces (n : Nat) : List ℚ :=
  (List.range' 1 n).flatMap (clipTrace n)

/-- Every fraction emitted over one full successful `process` run. -/
def processTrace (events : List DlEvent) (n : Nat) : List ℚ :=
  [1/10] ++ dlTrace events none ++ [3/10] ++ clipTraces n ++ [19/20, 1]

/-- C4 counterexample: the trace is not monotone — `process` emits 0.1
("Downloading video...") and the first percentage line of the downloader
(yt-dlp starts at 0.0%) then makes `download_video` emit
`0.05 + 0 * 0.2 = 0.05 < 0.1`. -/
theorem C4_counterexample :
    ¬ List.Chain' (fun a b => a ≤ b) (processTrace [DlEvent.pct 0] 1) := by
  intro h
  have h2 := h.rel_head
  norm_num [processTrace, dlTrace] at h2

theorem mem_dlTrace {events : List DlEvent} {last : Option ℚ} {x : ℚ}
    (h : x ∈ dlTrace events last) :
    (∃ p, DlEvent.pct p ∈ events ∧ x = 1/20 + p / 100 * (1/5)) ∨ x = 1/4 := by
  induction events generalizing last with
  | nil => simp [dlTrace] at h
  | cons e rest ih =>
      cases e with
      | pct p =>
          rw [dlTrace] at h
          split at h
          · rcases ih h with ⟨p2, hmem, hx⟩ | hx
            · exact Or.inl ⟨p2, List.mem_cons_of_mem _ hmem, hx⟩
            · exact Or.inr hx
          · rcases List.mem_cons.mp h with rfl | h2
            · exact Or.inl ⟨p, List.mem_cons_self _ _, rfl⟩
            · rcases ih h2 with ⟨p2, hmem, hx⟩ | hx
              · exact Or.inl ⟨p2, List.mem_cons_of_mem _ hmem, hx⟩
              · exact Or.inr hx
      | merger =>
          rw [dlTrace] at h
          rcases List.mem_cons.mp h with rfl | h2
          · exact Or.inr rfl
          · rcases ih h2 with ⟨p2, hmem, hx⟩ | hx
            · exact Or.inl ⟨p2, List.mem_cons_of_mem _ hmem, hx⟩
            · exact Or.inr hx

theorem clip_progress_bounds (n i s : Nat) (hn : 1 ≤ n) (h1 : 1 ≤ i)
    (hi : i ≤ n) (hs : s ≤ 4) :
    3/10 ≤ clip_progress n i s ∧ clip_progress n i s ≤ 9/10 := by
  have hnq : (0:ℚ) < n := by exact_mod_cast Nat.pos_of_ne_zero (by omega)
  have hiq : (i:ℚ) ≤ n := by exact_mod_cast hi
  have h1q : (1:ℚ) ≤ i := by exact_mod_cast h1
  have hsq : (s:ℚ) ≤ 4 := by exact_mod_cast hs
  have hs0 : (0:ℚ) ≤ s := Nat.cast_nonneg s
  have key : clip_progress n i s =
      3/10 + (3/5) * (((i:ℚ) - 1) + (s:ℚ)/4) / n := by
    unfold clip_progress
    field_simp
    ring
  rw [key]
  constructor
  · have hx : (0:ℚ) ≤ (3/5) * (((i:ℚ) - 1) + (s:ℚ)/4) / n :=
      div_nonneg (by linarith) (le_of_lt hnq)
    linarith
  · have hX : ((i:ℚ) - 1) + (s:ℚ)/4 ≤ n := by linarith
    have h2 : (3/5) * (((i:ℚ) - 1) + (s:ℚ)/4) / n ≤ 3/5 := by
      rw [div_le_iff₀ hnq]
      have := mul_le_mul_of_nonneg_left hX (by norm_num : (0:ℚ) ≤ 3/5)
      linarith
    linarith

theorem mem_clipTraces {n : Nat} {x : ℚ} (h : x ∈ clipTraces n) :
    ∃ i s, 1 ≤ i ∧ i ≤ n ∧ s ≤ 4 ∧ x = clip_progress n i s := by
  unfold clipTraces at h
  obtain ⟨i, hi, hx⟩ := List.mem_flatMap.mp h
  obtain ⟨hl, hr⟩ := List.mem_range'_1.mp hi
  unfold clipTrace at hx
  obtain ⟨s, hs, rfl⟩ := List.mem_map.mp hx
  exact ⟨i, s, hl, by omega, by have := List.mem_range.mp hs; omega, rfl⟩

/-- `clip_progress` is affine in the combined step index `4*i + s` with a
nonnegative coefficient, hence monotone in it. -/
theorem clip_progress_mono (n i s i2 s2 : Nat)
    (hle : 4 * i + s ≤ 4 * i2 + s2) :
    clip_progress n i s ≤ clip_progress n i2 s2 := by
  by_cases hn : (n:ℚ) = 0
  · unfold clip_progress
    rw [hn]
    simp
  · have hc : (0:ℚ) ≤ (3/5) / (4 * (n:ℚ)) := by positivity
    have key : ∀ i' s' : Nat, clip_progress n i' s' =
        3/10 + (3/5) / (4 * (n:ℚ)) * (4 * (i':ℚ) + (s':ℚ)) - (3/5)/(n:ℚ) := by
      intro i' s'
      unfold clip_progress
      field_simp
      ring
    rw [key i s, key i2 s2]
    have hle2 : 4 * (i:ℚ) + (s:ℚ) ≤ 4 * (i2:ℚ) + (s2:ℚ) := by
      exact_mod_cast hle
    have := mul_le_mul_of_nonneg_left hle2 hc
    linarith

theorem pairwise_clipTrace_blocks (n : Nat) : ∀ (m a : Nat),
    List.Pairwise (fun x y => x ≤ y)
      ((List.range' a m).flatMap (clipTrace n)) := by
  intro m
  induction m with
  | zero => intro a; simp
  | succ m2 ih =>
      intro a
      rw [List.range'_succ, List.flatMap_cons, List.pairwise_append]
      refine ⟨?_, ih (a + 1), ?_⟩
      · unfold clipTrace
        rw [List.pairwise_map]
        exact List.Pairwise.imp
          (fun hlt => clip_progress_mono n a _ a _ (by omega))
          (List.pairwise_lt_range 5)
      · intro x hx y hy
        obtain ⟨s, hs, rfl⟩ := List.mem_map.mp hx
        obtain ⟨i2, hi2, hy2⟩ := List.mem_flatMap.mp hy
        obtain ⟨s2, hs2, rfl⟩ := List.mem_map.mp hy2
        obtain ⟨hl2, _⟩ := List.mem_range'_1.mp hi2
        have hs4 := List.mem_range.mp hs
        exact clip_progress_mono n a s i2 s2 (by omega)

theorem clipTraces_pairwise (n : Nat) :
    List.Pairwise (fun x y => x ≤ y) (clipTraces n) :=
  pairwise_clipTrace_blocks n n 1

/-- C4 amended: every emitted fraction lies in `[0, 1]` (given the
downloader's percentages lie in `[0, 100]`), and the trace from the
highlight stage (0.3) onward is monotonically non-decreasing; but the
full trace is NOT monotone (see the counterexample): the download-phase
fractions `0.05 + p/100*0.2` drop below the initial 0.1 whenever the
reported percentage is below 25. -/
theorem C4_progress_amended (events : List DlEvent) (n : Nat) (hn : 1 ≤ n)
    (hp : ∀ p, DlEvent.pct p ∈ events → 0 ≤ p ∧ p ≤ 100) :
    (∀ x ∈ processTrace events n, 0 ≤ x ∧ x ≤ 1) ∧
    List.Chain' (fun a b => a ≤ b)
      ((3/10 : ℚ) :: (clipTraces n ++ [19/20, 1])) := by
  constructor
  · intro x hx
    unfold processTrace at hx
    rcases List.mem_append.mp hx with hx2 | h5
    · rcases List.mem_append.mp hx2 with hx3 | h4
      · rcases List.mem_append.mp hx3 with hx4 | h3
        · rcases List.mem_append.mp hx4 with h1 | h2
          · simp at h1
            subst h1
            norm_num
          · rcases mem_dlTrace h2 with ⟨p, hmem, rfl⟩ | rfl
            · obtain ⟨hp0, hp100⟩ := hp p hmem
              constructor <;> nlinarith
            · norm_num
        · simp at h3
          subst h3
          norm_num
      · obtain ⟨i, s, hh1, hi, hs, rfl⟩ := mem_clipTraces h4
        obtain ⟨hlo, hhi⟩ := clip_progress_bounds n i s hn hh1 hi hs
        constructor <;> linarith
    · rcases List.mem_cons.mp h5 with rfl | h6
      · norm_num
      · simp at h6
        subst h6
        norm_num
  · rw [List.chain'_iff_pairwise]
    rw [List.pairwise_cons]
    constructor
    · intro y hy
      rcases List.mem_append.mp hy with hy | hy
      · obtain ⟨i, s, h1, hi, hs, rfl⟩ := mem_clipTraces hy
        exact (clip_progress_bounds n i s hn h1 hi hs).1
      · rcases List.mem_cons.mp hy with rfl | hy
        · norm_num
        · simp at hy
          subst hy
          norm_num
    · rw [List.pairwise_append]
      refine ⟨clipTraces_pairwise n, by norm_num, ?_⟩
      intro x hx y hy
      obtain ⟨i, s, h1, hi, hs, rfl⟩ := mem_clipTraces hx
      have hhi := (clip_progress_bounds n i s hn h1 hi hs).2
      rcases List.mem_cons.mp hy with rfl | hy
      · linarith
      · simp at hy
        subst hy
        linarith

/-- Witness for the amended C4 (the closed monotone-suffix part at a
concrete run: one download line at 0%, one clip). -/
theorem C4_progress_amended_witness :
    List.Chain' (fun a b => a ≤ b)
      ((3/10 : ℚ) :: (clipTraces 1 ++ [19/20, 1])) :=
  (C4_progress_amended [DlEvent.pct 0] 1 (by norm_num)
    (by
      intro p hmem
      simp only [List.mem_singleton, DlEvent.pct.injEq] at hmem
      subst hmem
      norm_num)).2

/-! ## Caption Timeline Builder — `create_ass_subtitle_capcut`,
`format_time`, `add_captions_api` -/

/-- One word of the word-level transcription (`transcript.words`); the
Python attribute `end` is a keyword here, carried as `endT`. -/
structure WordTs where
  word : String
  start : ℚ
  endT : ℚ
deriving DecidableEq, Repr

/-- One segment of the segment-level fallback (`transcript.segments`). -/
structure SegmentTs where
  start : ℚ
  endT : ℚ
  text : String
deriving DecidableEq, Repr

/-- The transcription response: word-level timestamps when available,
segment-level otherwise (Python truthiness: an empty list is falsy). -/
structure TranscriptR where
  words : List WordTs
  segments : List SegmentTs
deriving DecidableEq, Repr

/-- `for i in range(0, len(words), chunk_size)` with `chunk_size = 4`:
split the word list into chunks of (up to) four. -/
def chunks4 : List WordTs → List (List WordTs)
  | [] => []
  | w :: rest => (w :: rest.take 3) :: chunks4 (rest.drop 3)
termination_by l => l.length
decreasing_by
  simp only [List.length_drop, List.length_cons]
  omega

/-- The rendered chunk text with word `j` highlighted: every word is
`w.word.strip().upper()`; the active word is wrapped in the ASS colour
override tags `{\c&H00FFFF&}…{\c&HFFFFFF&}`; words are joined with a
space. -/
def chunkText (chunk : List WordTs) (j : Nat) : String :=
  String.intercalate " "
    (chunk.mapIdx (fun k w =>
      if k = j then
        "\x7b\\c&H00FFFF&\x7d" ++ w.word.trim.toUpper ++ "\x7b\\c&HFFFFFF&\x7d"
      else w.word.trim.toUpper))

/-- One ASS `Dialogue` event.  The Python dict stores only the formatted
`start`/`end` strings and the text; `startSec`/`endSec` carry the numeric
values (`word.start + time_offset`, `word.end + time_offset`) that
`format_time` is applied to on lines 826–827. -/
structure CapEvent where
  startSec : ℚ
  endSec : ℚ
  startStr : String
  endStr : String
  text : String
deriving DecidableEq, Repr

/-- Python `%` on nonnegative reals: `a - b * ⌊a / b⌋`. -/
def qmod (a b : ℚ) : ℚ := a - b * ⌊a / b⌋

/-- `f"{n:02d}"` for the two-digit fields. -/
def pad2 (n : Int) : String :=
  if n < 10 then "0" ++ toString n else toString n

/-- `format_time` (lines 852–858): `h:mm:ss.cc` with `int()` applied to
`seconds // 3600`, `(seconds % 3600) // 60`, `seconds % 60` and
`(seconds % 1) * 100` — all nonnegative here, so truncation is `⌊·⌋`. -/
def format_time (seconds : ℚ) : String :=
  toString ⌊seconds / 3600⌋ ++ ":" ++ pad2 ⌊qmod seconds 3600 / 60⌋ ++ ":" ++
    pad2 ⌊qmod seconds 60⌋ ++ "." ++ pad2 ⌊qmod seconds 1 * 100⌋

/-- The word-branch of `create_ass_subtitle_capcut` (lines 796–829): for
each chunk of four words and each word `j` in the chunk, one event
spanning exactly that word's timestamps shifted by `time_offset`, with the
chunk text highlighted at `j`. -/
def capcutEvents (words : List WordTs) (t : ℚ) : List CapEvent :=
  (chunks4 words).flatMap (fun chunk =>
    chunk.mapIdx (fun j w =>
      { startSec := w.start + t
        endSec := w.endT + t
        startStr := format_time (w.start + t)
        endStr := format_time (w.endT + t)
        text := chunkText chunk j }))

/-- The segment-level fallback branch (lines 832–843). -/
def segEvents (segments : List SegmentTs) (t : ℚ) : List CapEvent :=
  segments.flatMap (fun sg =>
    if sg.text.trim.toUpper ≠ "" then
      [{ startSec := sg.start + t, endSec := sg.endT + t,
         startStr := format_time (sg.start + t),
         endStr := format_time (sg.endT + t),
         text := sg.text.trim.toUpper }]
    else [])

/-- The event list `create_ass_subtitle_capcut` writes out: word branch
when word-level timestamps exist, segment fallback otherwise, else no
events. -/
def create_ass_subtitle_capcut (tr : TranscriptR) (timeOffset : ℚ) :
    List CapEvent :=
  if tr.words ≠ [] then capcutEvents tr.words timeOffset
  else if tr.segments ≠ [] then segEvents tr.segments timeOffset
  else []

/-- C9: for a transcript with word-level timestamps, building the caption
timeline with offset `t` yields exactly the offset-0 events with every
event's start and end increased by exactly `t` — including the ASS
`Dialogue` times, which become `format_time` of the shifted values. -/
theorem C9_caption_offset_shift (tr : TranscriptR) (t : ℚ)
    (hw : tr.words ≠ []) :
    create_ass_subtitle_capcut tr t =
      (create_ass_subtitle_capcut tr 0).map (fun e =>
        { e with
          startSec := e.startSec + t
          endSec := e.endSec + t
          startStr := format_time (e.startSec + t)
          endStr := format_time (e.endSec + t) }) := by
  unfold create_ass_subtitle_capcut
  rw [if_pos hw, if_pos hw]
  unfold capcutEvents
  rw [List.map_flatMap]
  congr 1
  funext chunk
  rw [List.mapIdx_eq_enum_map, List.mapIdx_eq_enum_map, List.map_map]
  apply List.map_congr_left
  intro p hp
  simp [Function.uncurry]

/-- Witness for C9 at a one-word transcript and the offset `3.2 = 16/5`. -/
theorem C9_caption_offset_shift_witness :
    create_ass_subtitle_capcut ⟨[⟨"halo", 1/2, 9/10⟩], []⟩ (16/5) =
      (create_ass_subtitle_capcut ⟨[⟨"halo", 1/2, 9/10⟩], []⟩ 0).map (fun e =>
        { e with
          startSec := e.startSec + 16/5
          endSec := e.endSec + 16/5
          startStr := format_time (e.startSec + 16/5)
          endStr := format_time (e.endSec + 16/5) }) :=
  C9_caption_offset_shift ⟨[⟨"halo", 1/2, 9/10⟩], []⟩ (16/5) (by simp)

/-- Environment of one `add_captions_api` call: whether the ffmpeg audio
extraction exits 0, whether the extracted wav exists and its size, the
transcription result (`none` = the Whisper API call raised), and whether
the final caption burn exits 0. -/
structure CaptionEnv where
  extractOk : Bool
  audioExists : Bool
  audioSize : Nat
  whisper : Option TranscriptR
  burnOk : Bool
  timeOffset : ℚ

/-- What `add_captions_api` leaves at `output_path`: a plain copy of the
input (uncaptioned) or a clip with burned captions. -/
inductive CaptionOutcome
  | copiedWithoutCaptions
  | captioned (events : List CapEvent)
deriving DecidableEq

/-- `add_captions_api` (lines 676–771): extraction failure, a missing or
too-small (< 1000 bytes) audio file, and a raising Whisper call each log a
warning and `shutil.copy` the input to the output; a failing burn also
falls back to a copy; only the full success path produces a captioned
clip.  No path raises (`Except.error` is never returned). -/
def add_captions_api (env : CaptionEnv) : Except String CaptionOutcome :=
  if env.extractOk = false then Except.ok CaptionOutcome.copiedWithoutCaptions
  else if env.audioExists = false ∨ env.audioSize < 1000 then
    Except.ok CaptionOutcome.copiedWithoutCaptions
  else
    match env.whisper with
    | none => Except.ok CaptionOutcome.copiedWithoutCaptions
    | some tr =>
        if env.burnOk then
          Except.ok (CaptionOutcome.captioned
            (create_ass_subtitle_capcut tr env.timeOffset))
        else Except.ok CaptionOutcome.copiedWithoutCaptions

/-- C10: if transcription fails outright — the audio extraction fails, the
extracted audio is missing or too small, or the speech-to-text call raises
— `add_captions_api` raises no exception and still produces the output
clip as a copy of the input without captions. -/
theorem C10_caption_failure_degrades (env : CaptionEnv)
    (h : env.extractOk = false ∨ env.audioExists = false ∨
      env.audioSize < 1000 ∨ env.whisper = none) :
    add_captions_api env = Except.ok CaptionOutcome.copiedWithoutCaptions := by
  unfold add_captions_api
  rcases h with h | h | h | h
  · rw [if_pos h]
  · by_cases he : env.extractOk = false
    · rw [if_pos he]
    · rw [if_neg he, if_pos (Or.inl h)]
  · by_cases he : env.extractOk = false
    · rw [if_pos he]
    · rw [if_neg he, if_pos (Or.inr h)]
  · by_cases he : env.extractOk = false
    · rw [if_pos he]
    · rw [if_neg he]
      by_cases ha : env.audioExists = false ∨ env.audioSize < 1000
      · rw [if_pos ha]
      · rw [if_neg ha, h]

/-- Witness for C10: failed audio extraction. -/
theorem C10_caption_failure_degrades_witness :
    add_captions_api ⟨false, true, 5000, some ⟨[], []⟩, true, 0⟩ =
      Except.ok CaptionOutcome.copiedWithoutCaptions :=
  C10_caption_failure_degrades ⟨false, true, 5000, some ⟨[], []⟩, true, 0⟩
    (Or.inl rfl)
